import Mathlib

/-!
# Verification of the polymarket-live-tracker core

This file gives a shallow embedding of the core algorithms of the
`polymarket-live-tracker` repository and proves (or refutes) the frozen
specification claims about them.

The embedding covers:

* `winnerTracker.js` (`PolymarketWinnerTracker`): the chunked balance
  reconstruction `buildHolderSnapshot` and the winner computation
  `trackMarketWinners`.  The JavaScript `Map` of holder balances is modelled
  as an insertion-ordered association list with unique keys (`Ledger`), with
  `mget`/`mset`/`mdel` mirroring `Map.get`/`Map.set`/`Map.delete`.
* `marketTracker.js` (`PolymarketTracker`): the rate-limited request queue
  (`makeRequest`/`processQueue`), the WebSocket reconnect scheduling
  (`scheduleReconnect`), the realtime callback fan-out
  (`notifyRealtimeUpdate`), and the resolution handler
  (`handleMarketResolution`).

Addresses are modelled as `Nat` (with `0` playing the role of
`ethers.ZeroAddress`), event amounts as `Nat` (uint256 values), and balances
as `Int` (the intermediate `newBalance` in the source may be negative).
Time-dependent behaviour is modelled with an explicit logical clock in which
`setTimeout`/`await` sleeps advance the clock by exactly the requested
amount and attempted network requests advance it by a per-attempt duration.
-/

namespace WinnerTracker

/-- One observed ERC1155 `TransferSingle` event for the tracked position id.
`fromAddr`, `toAddr` and `value` model the `from`, `to` and `value` fields of
`event.args` (`from` is a Lean keyword, hence the suffixed names);
`blockNumber` is the block ordinal used for windowing the event log. -/
structure TransferEvent where
  fromAddr : Nat
  toAddr : Nat
  blockNumber : Nat
  value : Nat
deriving DecidableEq, Repr

/-- Model of `ethers.ZeroAddress`. -/
def zeroAddress : Nat := 0

/-- The holder ledger: a JavaScript `Map` from address to balance, modelled
as an insertion-ordered association list with (by construction) unique
keys. -/
abbrev Ledger := List (Nat × Int)

/-- `Map.get`: the value stored at the first (and only) entry for `a`. -/
def mget : Ledger → Nat → Option Int
  | [], _ => none
  | p :: m, a => if p.1 = a then some p.2 else mget m a

/-- `Map.set`: update the entry for `a` in place if present, otherwise
append a fresh entry at the end (JavaScript `Map` insertion order). -/
def mset : Ledger → Nat → Int → Ledger
  | [], a, v => [(a, v)]
  | p :: m, a, v => if p.1 = a then (a, v) :: m else p :: mset m a v

/-- `Map.delete`: remove the entry for `a`. -/
def mdel : Ledger → Nat → Ledger
  | [], _ => []
  | p :: m, a => if p.1 = a then m else p :: mdel m a

@[simp] theorem mget_nil (a : Nat) : mget [] a = none := rfl

@[simp] theorem mget_mset_self (m : Ledger) (a : Nat) (v : Int) :
    mget (mset m a v) a = some v := by
  induction m with
  | nil => simp [mset, mget]
  | cons p m ih =>
    by_cases h : p.1 = a <;> simp [mset, mget, h, ih]

theorem mget_mset_ne (m : Ledger) {a b : Nat} (v : Int) (h : b ≠ a) :
    mget (mset m a v) b = mget m b := by
  have hab : ¬ a = b := fun hh => h hh.symm
  induction m with
  | nil => simp [mset, mget, hab]
  | cons p m ih =>
    by_cases hp : p.1 = a
    · have hpb : ¬ p.1 = b := by rw [hp]; exact hab
      simp [mset, mget, hp, hab, hpb]
    · simp only [mset, hp, if_false, mget]
      by_cases hb : p.1 = b <;> simp [hb, ih]

theorem mget_mdel_ne (m : Ledger) {a b : Nat} (h : b ≠ a) :
    mget (mdel m a) b = mget m b := by
  induction m with
  | nil => simp [mdel]
  | cons p m ih =>
    by_cases hp : p.1 = a
    · have hpb : ¬ p.1 = b := by rw [hp]; exact fun hh => h hh.symm
      have hab : ¬ a = b := fun hh => h hh.symm
      simp [mdel, mget, hp, hpb, hab]
    · simp only [mdel, hp, if_false, mget]
      by_cases hb : p.1 = b <;> simp [hb, ih]

theorem mget_eq_none_of_not_mem (m : Ledger) (a : Nat)
    (h : a ∉ m.map Prod.fst) : mget m a = none := by
  induction m with
  | nil => rfl
  | cons p m ih =>
    simp only [List.map_cons, List.mem_cons] at h
    push_neg at h
    have hpa : ¬ p.1 = a := fun hh => h.1 hh.symm
    simp [mget, hpa, ih h.2]

theorem mget_mdel_self (m : Ledger) (a : Nat)
    (hnd : (m.map Prod.fst).Nodup) : mget (mdel m a) a = none := by
  induction m with
  | nil => rfl
  | cons p m ih =>
    simp only [List.map_cons, List.nodup_cons] at hnd
    by_cases hp : p.1 = a
    · simp only [mdel, hp, if_true]
      exact mget_eq_none_of_not_mem m a (hp ▸ hnd.1)
    · simp [mdel, mget, hp, ih hnd.2]

theorem keys_mset (m : Ledger) (a : Nat) (v : Int) :
    (mset m a v).map Prod.fst =
      if a ∈ m.map Prod.fst then m.map Prod.fst else m.map Prod.fst ++ [a] := by
  induction m with
  | nil => simp [mset]
  | cons p m ih =>
    by_cases hp : p.1 = a
    · simp [mset, hp]
    · have : ¬ a = p.1 := fun hh => hp hh.symm
      simp only [mset, hp, if_false, List.map_cons, ih, List.mem_cons, this, false_or]
      by_cases hm : a ∈ m.map Prod.fst <;> simp [hm]

theorem nodup_keys_mset (m : Ledger) (a : Nat) (v : Int)
    (h : (m.map Prod.fst).Nodup) : ((mset m a v).map Prod.fst).Nodup := by
  rw [keys_mset]
  by_cases hm : a ∈ m.map Prod.fst
  · simpa [hm] using h
  · have hdisj : (m.map Prod.fst).Disjoint [a] := by
      intro b hb hc
      simp only [List.mem_singleton] at hc
      subst hc
      exact hm hb
    simpa [hm] using List.Nodup.append h (List.nodup_singleton a) hdisj

theorem mdel_sublist (m : Ledger) (a : Nat) : List.Sublist (mdel m a) m := by
  induction m with
  | nil => simp [mdel]
  | cons p m ih =>
    by_cases hp : p.1 = a
    · simp only [mdel, hp, if_true]
      exact List.sublist_cons_self p m
    · simp only [mdel, hp, if_false]
      exact List.Sublist.cons₂ p ih

theorem nodup_keys_mdel (m : Ledger) (a : Nat)
    (h : (m.map Prod.fst).Nodup) : ((mdel m a).map Prod.fst).Nodup :=
  ((mdel_sublist m a).map Prod.fst).nodup h

theorem mem_mset (m : Ledger) (a : Nat) (v : Int) (p : Nat × Int)
    (hp : p ∈ mset m a v) : p ∈ m ∨ p = (a, v) := by
  induction m with
  | nil => simpa [mset] using hp
  | cons q m ih =>
    by_cases hq : q.1 = a
    · simp only [mset, hq, if_true, List.mem_cons] at hp
      rcases hp with h | h
      · exact Or.inr h
      · exact Or.inl (List.mem_cons_of_mem q h)
    · simp only [mset, hq, if_false, List.mem_cons] at hp
      rcases hp with h | h
      · exact Or.inl (h ▸ List.mem_cons_self q m)
      · rcases ih h with h' | h'
        · exact Or.inl (List.mem_cons_of_mem q h')
        · exact Or.inr h'

theorem mem_mdel (m : Ledger) (a : Nat) (p : Nat × Int)
    (hp : p ∈ mdel m a) : p ∈ m :=
  (mdel_sublist m a).mem hp

/-- One iteration of the event-processing loop of `buildHolderSnapshot`
(winnerTracker.js lines 93–113): subtract `amount` from the sender unless it
is the zero address, deleting the entry when the new balance is `≤ 0`, then
add `amount` to the receiver unless it is the zero address. -/
def applyEvent (holders : Ledger) (e : TransferEvent) : Ledger :=
  let amount : Int := e.value
  let holders1 :=
    if e.fromAddr ≠ zeroAddress then
      let currentBalance := (mget holders e.fromAddr).getD 0
      let newBalance := currentBalance - amount
      if newBalance ≤ 0 then mdel holders e.fromAddr
      else mset holders e.fromAddr newBalance
    else holders
  if e.toAddr ≠ zeroAddress then
    let currentBalance := (mget holders1 e.toAddr).getD 0
    mset holders1 e.toAddr (currentBalance + amount)
  else holders1

/-- Folding a list of transfer events into the ledger, in arrival order. -/
def applyEvents (holders : Ledger) (events : List TransferEvent) : Ledger :=
  events.foldl applyEvent holders

/-- The final pass of `buildHolderSnapshot` (lines 117–122): keep only the
entries with a strictly positive balance, in iteration order. -/
def filterPositive (holders : Ledger) : Ledger :=
  holders.filter (fun p => 0 < p.2)

/-- The chunked event-log replay of `buildHolderSnapshot` (lines 81–114):
the `for` loop runs over window starts `0, chunkSize, 2·chunkSize, …` while
`start ≤ blockNumber`, i.e. over `k = 0, …, blockNumber / chunkSize`, and
each window queries the range `[start, min (start + chunkSize - 1)
blockNumber]`.  `queryFilter` models `contract.queryFilter` restricted to
the tracked position id; a window query may fail, which aborts the loop. -/
def queryWindows (queryFilter : Nat → Nat → Except String (List TransferEvent))
    (chunkSize blockNumber : Nat) : Except String Ledger :=
  (List.range (blockNumber / chunkSize + 1)).foldlM
    (fun holders k =>
      (queryFilter (k * chunkSize) (min (k * chunkSize + chunkSize - 1) blockNumber)).map
        (fun events => applyEvents holders events))
    []

/-- `buildHolderSnapshot` (lines 74–130): replay the windows, filter out the
non-positive balances, and — per the `catch` block of lines 126–129 — return
a fresh empty map if anything failed. -/
def buildHolderSnapshot (queryFilter : Nat → Nat → Except String (List TransferEvent))
    (chunkSize blockNumber : Nat) : Ledger :=
  match queryWindows queryFilter chunkSize blockNumber with
  | .ok holders => filterPositive holders
  | .error _ => []

/-- One `(address, winningTokens, payoutUSDC)` entry of the winner record. -/
structure WinnerEntry where
  address : Nat
  winningTokens : Int
  payoutUSDC : Int
deriving DecidableEq, Repr

/-- The `winnerData` record assembled by `trackMarketWinners` (lines 46–59),
restricted to the fields the claims speak about. -/
structure WinnerData where
  positionId : Nat
  resolutionBlock : Nat
  winners : List WinnerEntry
  totalPayout : Int
  winnerCount : Nat
deriving DecidableEq, Repr

/-- `trackMarketWinners` (lines 25–72): if `getPositionId` produced no
position id the method returns `null`; otherwise it builds the holder
snapshot, sums the balances into `totalPayout` with `reduce`, and maps each
holder to a winner entry with `payoutUSDC = winningTokens` (1:1
redemption). -/
def trackMarketWinners (positionId : Option Nat)
    (queryFilter : Nat → Nat → Except String (List TransferEvent))
    (chunkSize resolutionBlock : Nat) : Option WinnerData :=
  match positionId with
  | none => none
  | some pid =>
    let holders := buildHolderSnapshot queryFilter chunkSize resolutionBlock
    let totalPayout := (holders.map (fun p => p.2)).foldl (· + ·) 0
    some
      { positionId := pid
        resolutionBlock := resolutionBlock
        winners := holders.map (fun p => ⟨p.1, p.2, p.2⟩)
        totalPayout := totalPayout
        winnerCount := holders.length }

/-- Per-event balance change of address `a`: credited if `a` is the
receiver, debited if `a` is the sender. -/
def delta (e : TransferEvent) (a : Nat) : Int :=
  (if e.toAddr = a then (e.value : Int) else 0) -
    (if e.fromAddr = a then (e.value : Int) else 0)

/-- Net balance of `a` over an event sequence: total received minus total
sent. -/
def netBal : List TransferEvent → Nat → Int
  | [], _ => 0
  | e :: evs, a => delta e a + netBal evs a

/-- Total amount received by `a` over an event sequence. -/
def totalReceived (evs : List TransferEvent) (a : Nat) : Nat :=
  ((evs.filter (fun e => e.toAddr = a)).map (fun e => e.value)).sum

/-- Total amount sent by `a` over an event sequence. -/
def totalSent (evs : List TransferEvent) (a : Nat) : Nat :=
  ((evs.filter (fun e => e.fromAddr = a)).map (fun e => e.value)).sum

theorem netBal_eq_received_sub_sent (evs : List TransferEvent) (a : Nat) :
    netBal evs a = (totalReceived evs a : Int) - (totalSent evs a : Int) := by
  induction evs with
  | nil => simp [netBal, totalReceived, totalSent]
  | cons e evs ih =>
    by_cases ht : e.toAddr = a <;> by_cases hf : e.fromAddr = a <;>
      simp [netBal, delta, totalReceived, totalSent, ht, hf] at ih ⊢ <;>
      omega

/-- A sequence of events is adequately funded with respect to starting
balances `bal` when every non-mint event debits no more than its sender's
running net balance. -/
def validFrom : (Nat → Int) → List TransferEvent → Bool
  | _, [] => true
  | bal, e :: evs =>
    (decide (e.fromAddr = zeroAddress) || decide ((e.value : Int) ≤ bal e.fromAddr)) &&
      validFrom (fun a => bal a + delta e a) evs

/-- Invariant tying the ledger to the running net balances `bal`: keys are
unique, every non-null address has a non-negative running balance, and its
ledger entry is exactly that balance — with the entry possibly absent when
the balance is zero. -/
structure GoodLedger (m : Ledger) (bal : Nat → Int) : Prop where
  nodup : (m.map Prod.fst).Nodup
  nonneg : ∀ a, a ≠ zeroAddress → 0 ≤ bal a
  track : ∀ a, a ≠ zeroAddress →
    mget m a = some (bal a) ∨ (bal a = 0 ∧ mget m a = none)

theorem GoodLedger.getD_eq {m : Ledger} {bal : Nat → Int}
    (hg : GoodLedger m bal) {a : Nat} (ha : a ≠ zeroAddress) :
    (mget m a).getD 0 = bal a := by
  rcases hg.track a ha with h | h
  · simp [h]
  · simp [h.2, h.1]

theorem GoodLedger.congr {m : Ledger} {f g : Nat → Int} (hg : GoodLedger m f)
    (h : ∀ a, a ≠ zeroAddress → f a = g a) : GoodLedger m g where
  nodup := hg.nodup
  nonneg := fun a ha => h a ha ▸ hg.nonneg a ha
  track := fun a ha => h a ha ▸ hg.track a ha

theorem goodLedger_debit {m : Ledger} {bal : Nat → Int} (hg : GoodLedger m bal)
    (e : TransferEvent)
    (hv : e.fromAddr = zeroAddress ∨ (e.value : Int) ≤ bal e.fromAddr) :
    GoodLedger
      (if e.fromAddr ≠ zeroAddress then
        if (mget m e.fromAddr).getD 0 - (e.value : Int) ≤ 0 then mdel m e.fromAddr
        else mset m e.fromAddr ((mget m e.fromAddr).getD 0 - (e.value : Int))
      else m)
      (fun a => bal a - (if e.fromAddr = a then (e.value : Int) else 0)) := by
  by_cases hf : e.fromAddr = zeroAddress
  · simp only [hf, ne_eq, not_true_eq_false, if_false]
    refine hg.congr ?_
    intro a ha
    have : ¬ zeroAddress = a := fun hh => ha hh.symm
    simp [this]
  · have hvv : (e.value : Int) ≤ bal e.fromAddr := hv.resolve_left hf
    have hcur : (mget m e.fromAddr).getD 0 = bal e.fromAddr := hg.getD_eq hf
    simp only [ne_eq, hf, not_false_eq_true, if_true, hcur]
    by_cases hle : bal e.fromAddr - (e.value : Int) ≤ 0
    · have hz : bal e.fromAddr - (e.value : Int) = 0 := le_antisymm hle (by omega)
      simp only [hle, if_true]
      refine ⟨nodup_keys_mdel m e.fromAddr hg.nodup, ?_, ?_⟩
      · intro a ha
        by_cases haf : e.fromAddr = a
        · simp [← haf, hz]
        · have : ¬ e.fromAddr = a := haf
          simp only [this, if_false, sub_zero]
          exact hg.nonneg a ha
      · intro a ha
        by_cases haf : e.fromAddr = a
        · subst haf
          exact Or.inr ⟨by simpa using hz, mget_mdel_self m e.fromAddr hg.nodup⟩
        · have hne : a ≠ e.fromAddr := fun hh => haf hh.symm
          rw [mget_mdel_ne m hne]
          simpa [haf] using hg.track a ha
    · simp only [hle, if_false]
      refine ⟨nodup_keys_mset m e.fromAddr _ hg.nodup, ?_, ?_⟩
      · intro a ha
        by_cases haf : e.fromAddr = a
        · subst haf
          simp only [if_pos rfl]
          omega
        · simp only [haf, if_false, sub_zero]
          exact hg.nonneg a ha
      · intro a ha
        by_cases haf : e.fromAddr = a
        · subst haf
          simp [mget_mset_self]
        · have hne : a ≠ e.fromAddr := fun hh => haf hh.symm
          rw [mget_mset_ne m _ hne]
          simpa [haf] using hg.track a ha

theorem goodLedger_credit {m : Ledger} {bal : Nat → Int} (hg : GoodLedger m bal)
    (t : Nat) (v : Int) (hv0 : 0 ≤ v) :
    GoodLedger
      (if t ≠ zeroAddress then mset m t ((mget m t).getD 0 + v) else m)
      (fun a => bal a + (if t = a then v else 0)) := by
  by_cases ht : t = zeroAddress
  · simp only [ht, ne_eq, not_true_eq_false, if_false]
    refine hg.congr ?_
    intro a ha
    have : ¬ zeroAddress = a := fun hh => ha hh.symm
    simp [this]
  · have hcur : (mget m t).getD 0 = bal t := hg.getD_eq ht
    simp only [ne_eq, ht, not_false_eq_true, if_true, hcur]
    refine ⟨nodup_keys_mset m t _ hg.nodup, ?_, ?_⟩
    · intro a ha
      by_cases hat : t = a
      · subst hat
        have := hg.nonneg t ha
        simp only [if_pos rfl]
        omega
      · simp only [hat, if_false, add_zero]
        exact hg.nonneg a ha
    · intro a ha
      by_cases hat : t = a
      · subst hat
        simp [mget_mset_self]
      · have hne : a ≠ t := fun hh => hat hh.symm
        rw [mget_mset_ne m _ hne]
        simpa [hat] using hg.track a ha

theorem goodLedger_applyEvent {m : Ledger} {bal : Nat → Int}
    (hg : GoodLedger m bal) (e : TransferEvent)
    (hv : e.fromAddr = zeroAddress ∨ (e.value : Int) ≤ bal e.fromAddr) :
    GoodLedger (applyEvent m e) (fun a => bal a + delta e a) := by
  have h1 := goodLedger_debit hg e hv
  have h2 := goodLedger_credit h1 e.toAddr (e.value : Int) (Int.ofNat_nonneg e.value)
  have h3 : GoodLedger (applyEvent m e)
      (fun a => (bal a - if e.fromAddr = a then (e.value : Int) else 0) +
        if e.toAddr = a then (e.value : Int) else 0) := by
    unfold applyEvent
    exact h2
  refine h3.congr ?_
  intro a _
  simp only [delta]
  ring

theorem goodLedger_applyEvents :
    ∀ (evs : List TransferEvent) (m : Ledger) (bal : Nat → Int),
      GoodLedger m bal → validFrom bal evs = true →
      GoodLedger (applyEvents m evs) (fun a => bal a + netBal evs a) := by
  intro evs
  induction evs with
  | nil =>
    intro m bal hg _
    exact hg.congr (by intro a _; simp [netBal])
  | cons e evs ih =>
    intro m bal hg hval
    simp only [validFrom, Bool.and_eq_true, Bool.or_eq_true, decide_eq_true_eq] at hval
    have h1 := goodLedger_applyEvent hg e hval.1
    have h2 := ih (applyEvent m e) _ h1 hval.2
    refine h2.congr ?_
    intro a _
    simp only [netBal]
    ring

theorem filterPositive_sublist (m : Ledger) :
    List.Sublist (filterPositive m) m :=
  List.filter_sublist m

theorem mget_filterPositive (m : Ledger) (hnd : (m.map Prod.fst).Nodup)
    (a : Nat) :
    mget (filterPositive m) a =
      (mget m a).bind (fun v => if 0 < v then some v else none) := by
  induction m with
  | nil => rfl
  | cons p m ih =>
    simp only [List.map_cons, List.nodup_cons] at hnd
    by_cases hp : p.1 = a
    · subst hp
      by_cases hv : 0 < p.2
      · simp [filterPositive, mget, hv]
      · have hnot : p.1 ∉ (filterPositive m).map Prod.fst := fun hmem =>
          hnd.1 (List.Sublist.mem hmem ((filterPositive_sublist m).map Prod.fst))
        have hnone := mget_eq_none_of_not_mem (filterPositive m) p.1 hnot
        simp only [filterPositive] at hnone
        simp [filterPositive, mget, hv, hnone]
    · by_cases hv : 0 < p.2 <;>
        simpa [filterPositive, mget, hp, hv] using ih hnd.2

theorem mget_mem (m : Ledger) (a : Nat) (v : Int) (h : mget m a = some v) :
    (a, v) ∈ m := by
  induction m with
  | nil => simp [mget] at h
  | cons p m ih =>
    by_cases hp : p.1 = a
    · simp only [mget, hp, if_true, Option.some.injEq] at h
      have hpv : p = (a, v) := by
        cases p
        simp_all
      rw [← hpv]
      exact List.mem_cons_self p m
    · simp only [mget, hp, if_false] at h
      exact List.mem_cons_of_mem p (ih h)

/-- The ledger never holds a non-positive entry. -/
def PosLedger (m : Ledger) : Prop := ∀ p ∈ m, 0 < p.2

theorem posLedger_applyEvent {m : Ledger} (hm : PosLedger m)
    (e : TransferEvent) (hv : 0 < e.value) : PosLedger (applyEvent m e) := by
  have hvz : (0 : Int) < (e.value : Int) := by exact_mod_cast hv
  have hm1 : PosLedger
      (if e.fromAddr ≠ zeroAddress then
        if (mget m e.fromAddr).getD 0 - (e.value : Int) ≤ 0 then mdel m e.fromAddr
        else mset m e.fromAddr ((mget m e.fromAddr).getD 0 - (e.value : Int))
      else m) := by
    by_cases hf : e.fromAddr = zeroAddress
    · simpa [hf] using hm
    · simp only [ne_eq, hf, not_false_eq_true, if_true]
      by_cases hle : (mget m e.fromAddr).getD 0 - (e.value : Int) ≤ 0
      · simp only [hle, if_true]
        intro p hp
        exact hm p (mem_mdel m e.fromAddr p hp)
      · simp only [hle, if_false]
        intro p hp
        rcases mem_mset m e.fromAddr _ p hp with h | h
        · exact hm p h
        · rw [h]
          omega

  by_cases ht : e.toAddr = zeroAddress
  · intro p hp
    refine hm1 p ?_
    simpa [applyEvent, ht] using hp
  · intro p hp
    have hp' : p ∈ mset
        (if e.fromAddr ≠ zeroAddress then
          if (mget m e.fromAddr).getD 0 - (e.value : Int) ≤ 0 then mdel m e.fromAddr
          else mset m e.fromAddr ((mget m e.fromAddr).getD 0 - (e.value : Int))
        else m) e.toAddr
        ((mget
          (if e.fromAddr ≠ zeroAddress then
            if (mget m e.fromAddr).getD 0 - (e.value : Int) ≤ 0 then mdel m e.fromAddr
            else mset m e.fromAddr ((mget m e.fromAddr).getD 0 - (e.value : Int))
          else m) e.toAddr).getD 0 + (e.value : Int)) := by
      simpa [applyEvent, ht] using hp
    rcases mem_mset _ _ _ p hp' with h | h
    · exact hm1 p h
    · rw [h]
      simp only
      rcases hcur : mget
          (if e.fromAddr ≠ zeroAddress then
            if (mget m e.fromAddr).getD 0 - (e.value : Int) ≤ 0 then mdel m e.fromAddr
            else mset m e.fromAddr ((mget m e.fromAddr).getD 0 - (e.value : Int))
          else m) e.toAddr with _ | w
      · simpa [hcur] using hvz
      · have hw : 0 < w := hm1 _ (mget_mem _ _ _ hcur)
        simp only [hcur, Option.getD_some]
        omega

theorem posLedger_applyEvents :
    ∀ (evs : List TransferEvent) (m : Ledger), PosLedger m →
      (∀ e ∈ evs, 0 < e.value) → PosLedger (applyEvents m evs) := by
  intro evs
  induction evs with
  | nil => intro m hm _; exact hm
  | cons e evs ih =>
    intro m hm hval
    have h1 := posLedger_applyEvent hm e (hval e (by simp))
    exact ih (applyEvent m e) h1 (fun e' he' => hval e' (List.mem_cons_of_mem e he'))

/-- A global event log ordered by block number (the on-chain transfer log). -/
def BlockOrdered (log : List TransferEvent) : Prop :=
  List.Pairwise (fun a b => a.blockNumber ≤ b.blockNumber) log

/-- The window query induced by a global event log: it returns exactly the
log's events whose block number lies in the requested window, in log
order. -/
def logQuery (log : List TransferEvent) (s e : Nat) :
    Except String (List TransferEvent) :=
  .ok (log.filter (fun ev => s ≤ ev.blockNumber ∧ ev.blockNumber ≤ e))

theorem applyEvents_append (m : Ledger) (xs ys : List TransferEvent) :
    applyEvents m (xs ++ ys) = applyEvents (applyEvents m xs) ys := by
  simp [applyEvents, List.foldl_append]

theorem filter_split_sorted (l : List TransferEvent) (t t' : Nat)
    (hs : BlockOrdered l) (htt : t ≤ t') :
    l.filter (fun ev => ev.blockNumber < t) ++
      l.filter (fun ev => t ≤ ev.blockNumber ∧ ev.blockNumber < t') =
    l.filter (fun ev => ev.blockNumber < t') := by
  induction l with
  | nil => simp
  | cons v l ih =>
    have hcons := List.pairwise_cons.mp hs
    have hv_le : ∀ w ∈ l, v.blockNumber ≤ w.blockNumber := hcons.1
    have ih' := ih hcons.2
    by_cases h1 : v.blockNumber < t
    · have h1' : v.blockNumber < t' := lt_of_lt_of_le h1 htt
      have hnt : ¬ t ≤ v.blockNumber := by omega
      simp [List.filter_cons, h1, h1', hnt]
      simpa using ih'
    · have hfl : l.filter (fun ev => ev.blockNumber < t) = [] := by
        rw [List.filter_eq_nil_iff]
        intro w hw
        have := hv_le w hw
        simp only [decide_eq_true_eq]
        omega
      by_cases h2 : v.blockNumber < t'
      · have hmid : ∀ w ∈ l,
            (decide (t ≤ w.blockNumber) && decide (w.blockNumber < t')) =
              decide (w.blockNumber < t') := by
          intro w hw
          have := hv_le w hw
          have hge' : t ≤ w.blockNumber := by omega
          simp [hge']
        have hge : t ≤ v.blockNumber := by omega
        simp [List.filter_cons, h1, h2, hfl, hge]
        exact List.filter_congr hmid
      · have hfr : l.filter (fun ev => ev.blockNumber < t') = [] := by
          rw [List.filter_eq_nil_iff]
          intro w hw
          have := hv_le w hw
          simp only [decide_eq_true_eq]
          omega
        have hfm : l.filter (fun ev => decide (t ≤ ev.blockNumber ∧ ev.blockNumber < t')) = [] := by
          rw [List.filter_eq_nil_iff]
          intro w hw
          have := hv_le w hw
          simp only [decide_eq_true_eq]
          omega
        have hnm : ¬ (t ≤ v.blockNumber ∧ v.blockNumber < t') := fun hh => by omega
        simp [List.filter_cons, h1, h2, hfl, hfr, hfm, hnm]
        intro a ha _
        have := hv_le a ha
        omega

theorem foldl_append_init {α : Type} (w : Nat → List α) :
    ∀ (ks : List Nat) (acc : List α),
      ks.foldl (fun a k => a ++ w k) acc = acc ++ ks.foldl (fun a k => a ++ w k) [] := by
  intro ks
  induction ks with
  | nil => intro acc; simp
  | cons k ks ih =>
    intro acc
    rw [List.foldl_cons, List.foldl_cons, ih (acc ++ w k), ih ([] ++ w k)]
    simp

theorem foldl_applyEvents_join (w : Nat → List TransferEvent) :
    ∀ (ks : List Nat) (init : Ledger),
      ks.foldl (fun h k => applyEvents h (w k)) init =
        applyEvents init (ks.foldl (fun a k => a ++ w k) []) := by
  intro ks
  induction ks with
  | nil => intro init; simp [applyEvents]
  | cons k ks ih =>
    intro init
    rw [List.foldl_cons, List.foldl_cons, ih, foldl_append_init w ks ([] ++ w k)]
    simp [← applyEvents_append]

theorem join_windows_aux (log : List TransferEvent) (hs : BlockOrdered log)
    (c B : Nat) (hc : 1 ≤ c) :
    ∀ n, n ≤ B / c →
      (List.range n).foldl
        (fun acc k => acc ++ log.filter
          (fun ev => k * c ≤ ev.blockNumber ∧ ev.blockNumber ≤ min (k * c + c - 1) B)) [] =
      log.filter (fun ev => ev.blockNumber < n * c) := by
  intro n
  induction n with
  | zero =>
    intro _
    simp [Nat.not_lt_zero]
  | succ n ih =>
    intro hn
    have hn' : n ≤ B / c := le_of_lt (Nat.lt_of_succ_le hn)
    rw [List.range_succ, List.foldl_append, ih hn', List.foldl_cons, List.foldl_nil]
    have hende : n * c + c ≤ B := by
      have h2 : (n + 1) * c ≤ (B / c) * c := Nat.mul_le_mul_right c hn
      have h3 : (B / c) * c ≤ B := Nat.div_mul_le_self B c
      have h4 : (n + 1) * c = n * c + c := by ring
      omega
    have hmin : min (n * c + c - 1) B = n * c + c - 1 := by
      apply Nat.min_eq_left
      omega
    rw [hmin]
    have hconv : ∀ ev ∈ log,
        (decide (n * c ≤ ev.blockNumber ∧ ev.blockNumber ≤ n * c + c - 1)) =
          (decide (n * c ≤ ev.blockNumber ∧ ev.blockNumber < n * c + c)) := by
      intro ev _
      simp only [decide_eq_decide]
      omega
    rw [List.filter_congr hconv]
    have hmul : (n + 1) * c = n * c + c := by ring
    rw [hmul]
    exact filter_split_sorted log (n * c) (n * c + c) hs (by omega)

theorem join_windows_eq (log : List TransferEvent) (hs : BlockOrdered log)
    (c B : Nat) (hc : 1 ≤ c) :
    (List.range (B / c + 1)).foldl
      (fun acc k => acc ++ log.filter
        (fun ev => k * c ≤ ev.blockNumber ∧ ev.blockNumber ≤ min (k * c + c - 1) B)) [] =
    log.filter (fun ev => ev.blockNumber ≤ B) := by
  rw [List.range_succ, List.foldl_append,
    join_windows_aux log hs c B hc (B / c) (le_refl _), List.foldl_cons, List.foldl_nil]
  have hmin : min ((B / c) * c + c - 1) B = B := by
    apply Nat.min_eq_right
    have h1 := Nat.div_add_mod B c
    have h2 : B % c < c := Nat.mod_lt B (by omega)
    have h3 : c * (B / c) = (B / c) * c := Nat.mul_comm c (B / c)
    omega
  rw [hmin]
  have hconv : ∀ ev ∈ log,
      (decide ((B / c) * c ≤ ev.blockNumber ∧ ev.blockNumber ≤ B)) =
        (decide ((B / c) * c ≤ ev.blockNumber ∧ ev.blockNumber < B + 1)) := by
    intro ev _
    simp only [decide_eq_decide]
    omega
  rw [List.filter_congr hconv]
  have hconvR : ∀ ev ∈ log,
      (decide (ev.blockNumber ≤ B)) = (decide (ev.blockNumber < B + 1)) := by
    intro ev _
    simp only [decide_eq_decide]
    omega
  rw [List.filter_congr hconvR]
  exact filter_split_sorted log ((B / c) * c) (B + 1) hs
    (by
      have h3 : (B / c) * c ≤ B := Nat.div_mul_le_self B c
      omega)

theorem queryWindows_ok (w : Nat → List TransferEvent) :
    ∀ (ks : List Nat) (init : Ledger),
      ks.foldlM (fun holders k =>
        Except.map (fun events => applyEvents holders events)
          (Except.ok (ε := String) (w k))) init =
      Except.ok (ks.foldl (fun holders k => applyEvents holders (w k)) init) := by
  intro ks
  induction ks with
  | nil => intro init; rfl
  | cons k ks ih =>
    intro init
    rw [List.foldlM_cons]
    simp only [Except.map]
    rw [List.foldl_cons]
    exact ih (applyEvents init (w k))

/-- For a block-ordered log, the chunked replay of `buildHolderSnapshot`
computes exactly the fold of the log's events up to the cutoff block,
followed by the positive filter — for every chunk size. -/
theorem buildHolderSnapshot_logQuery (log : List TransferEvent)
    (hs : BlockOrdered log) (c B : Nat) (hc : 1 ≤ c) :
    buildHolderSnapshot (logQuery log) c B =
      filterPositive (applyEvents [] (log.filter (fun ev => ev.blockNumber ≤ B))) := by
  unfold buildHolderSnapshot queryWindows logQuery
  rw [queryWindows_ok
    (fun k => log.filter (fun ev => k * c ≤ ev.blockNumber ∧ ev.blockNumber ≤ min (k * c + c - 1) B))]
  rw [foldl_applyEvents_join]
  rw [join_windows_eq log hs c B hc]

theorem foldlM_window_error (q : Nat → Except String (List TransferEvent)) :
    ∀ (ks : List Nat) (init : Ledger) (k : Nat), k ∈ ks →
      (∃ err, q k = .error err) →
      ∃ msg, ks.foldlM (fun holders kk =>
          Except.map (fun events => applyEvents holders events) (q kk)) init =
        .error msg := by
  intro ks
  induction ks with
  | nil =>
    intro init k hk _
    simp at hk
  | cons k' ks ih =>
    intro init k hk herr
    rcases hq : q k' with msg | evs
    · refine ⟨msg, ?_⟩
      rw [List.foldlM_cons]
      simp only [hq, Except.map]
      rfl
    · rcases List.mem_cons.mp hk with rfl | hk'
      · obtain ⟨err, herr'⟩ := herr
        rw [hq] at herr'
        cases herr'
      · obtain ⟨msg, hmsg⟩ := ih (applyEvents init evs) k hk' herr
        refine ⟨msg, ?_⟩
        rw [List.foldlM_cons]
        simpa [hq, Except.map] using hmsg

/-- Events for the C1 counterexample: address 1 first sends 10 units it was
never credited with, then receives a mint of 5. -/
def overdraftEvents : List TransferEvent :=
  [⟨1, 2, 0, 10⟩, ⟨zeroAddress, 1, 1, 5⟩]

/-- Events of the spec's own worked example: mint 50 to address 1, then
transfer 20 and then 30 from address 1 to address 2. -/
def specExampleEvents : List TransferEvent :=
  [⟨zeroAddress, 1, 0, 50⟩, ⟨1, 2, 1, 20⟩, ⟨1, 2, 2, 30⟩]

/-- C1, counterexample.  The claim asserts that for every event sequence,
every address present in the resulting ledger has balance equal to its total
received minus total sent.  It fails: when an address over-sends, the code
clamps its entry away and forgets the deficit, so a later credit resurrects
the address with a balance that differs from its net.  After
`overdraftEvents`, address 1 is present with balance 5 although its net is
-5 (and, being non-positive, the claim also requires it to be absent). -/
theorem claim_C1_counterexample :
    mget (filterPositive (applyEvents [] overdraftEvents)) 1 = some 5 ∧
    (totalReceived overdraftEvents 1 : Int) - (totalSent overdraftEvents 1 : Int) = -5 := by
  constructor
  · decide
  · decide

/-- C1, amended.  For every event sequence in which no event debits a
sender below its running net balance (`validFrom` from all-zero balances —
true of any genuine on-chain transfer log), the reconstruction is exact:
a non-null address is present in the resulting ledger if and only if its
total received minus total sent is strictly positive, in which case its
balance is exactly that net amount. -/
theorem claim_C1 (evs : List TransferEvent)
    (hval : validFrom (fun _ => 0) evs = true) (a : Nat) (ha : a ≠ zeroAddress) :
    mget (filterPositive (applyEvents [] evs)) a =
      if 0 < (totalReceived evs a : Int) - (totalSent evs a : Int)
      then some ((totalReceived evs a : Int) - (totalSent evs a : Int))
      else none := by
  have hg0 : GoodLedger [] (fun _ => 0) :=
    ⟨by simp, fun _ _ => le_refl 0, fun b _ => Or.inr ⟨rfl, rfl⟩⟩
  have hg := goodLedger_applyEvents evs [] (fun _ => 0) hg0 hval
  have hg1 : GoodLedger (applyEvents [] evs) (fun b => netBal evs b) :=
    hg.congr (by intro b _; simp)
  have hfin := mget_filterPositive (applyEvents [] evs) hg1.nodup a
  rw [← netBal_eq_received_sub_sent]
  rcases hg1.track a ha with h | h
  · rw [hfin, h]
    simp
  · rw [hfin, h.2]
    simp [h.1]

/-- C1, witness: on the spec's worked example the amended theorem applies
and computes the expected final holder. -/
theorem claim_C1_witness :
    validFrom (fun _ => 0) specExampleEvents = true ∧
    mget (filterPositive (applyEvents [] specExampleEvents)) 2 = some 50 := by
  refine ⟨by decide, ?_⟩
  rw [claim_C1 specExampleEvents (by decide) 2 (by decide)]
  decide

/-- A transfer of zero units minted to address 1. -/
def zeroMintEvent : TransferEvent := ⟨zeroAddress, 1, 0, 0⟩

/-- C5, counterexample.  The claim asserts that at every intermediate point
of the fold the ledger contains no entry with balance `≤ 0`.  A zero-amount
credit inserts a zero-balance entry (`holders.set(to, 0 + 0)`), which the
code only removes in the final filtering pass: after applying
`zeroMintEvent` the intermediate ledger is exactly `[(1, 0)]`. -/
theorem claim_C5_counterexample :
    applyEvents [] [zeroMintEvent] = [(1, (0 : Int))] ∧ ¬ (0 : Int) > 0 := by
  constructor
  · decide
  · decide

/-- C5, amended.  Provided every event's amount is strictly positive, the
claim holds: after every prefix of the fold — in particular at each window
boundary — every entry of the intermediate ledger has a strictly positive
balance (each debit removes a non-positive entry entirely, and a positive
credit can only produce a positive balance). -/
theorem claim_C5 (evs l1 l2 : List TransferEvent) (hsplit : evs = l1 ++ l2)
    (hpos : ∀ e ∈ evs, 0 < e.value) :
    ∀ p ∈ applyEvents [] l1, 0 < p.2 := by
  have hpos1 : ∀ e ∈ l1, 0 < e.value := fun e he =>
    hpos e (hsplit ▸ List.mem_append_left l2 he)
  exact posLedger_applyEvents l1 [] (by intro p hp; simp at hp) hpos1

/-- C5, witness: the amended theorem applied to the spec's worked example,
split after its second event; the intermediate entry of address 1 is 30. -/
theorem claim_C5_witness :
    specExampleEvents = [⟨zeroAddress, 1, 0, 50⟩, ⟨1, 2, 1, 20⟩] ++ [⟨1, 2, 2, 30⟩] ∧
    (0 : Int) < 30 :=
  ⟨rfl, claim_C5 specExampleEvents [⟨zeroAddress, 1, 0, 50⟩, ⟨1, 2, 1, 20⟩]
    [⟨1, 2, 2, 30⟩] rfl (by decide) (1, 30) (by decide)⟩

/-- C3, confirmed.  For a block-ordered event log queried by block windows,
the reconstruction is deterministic and invariant under chunking: any two
window sizes produce identical final ledgers (the chunked replay equals the
single fold of all events up to the cutoff, for every chunk size). -/
theorem claim_C3 (log : List TransferEvent) (hs : BlockOrdered log)
    (B c1 c2 : Nat) (hc1 : 1 ≤ c1) (hc2 : 1 ≤ c2) :
    buildHolderSnapshot (logQuery log) c1 B =
      buildHolderSnapshot (logQuery log) c2 B := by
  rw [buildHolderSnapshot_logQuery log hs c1 B hc1,
    buildHolderSnapshot_logQuery log hs c2 B hc2]

/-- C3, witness: chunk sizes 1 and 3 over the spec's worked example yield
the same snapshot. -/
theorem claim_C3_witness :
    BlockOrdered specExampleEvents ∧
    buildHolderSnapshot (logQuery specExampleEvents) 1 2 =
      buildHolderSnapshot (logQuery specExampleEvents) 3 2 := by
  have hbo : BlockOrdered specExampleEvents := by
    unfold BlockOrdered specExampleEvents
    decide
  exact ⟨hbo, claim_C3 specExampleEvents hbo 2 1 3 (by decide) (by decide)⟩

/-- A window query that succeeds on the first window (a mint of 100 to
address 1) and fails with a connection error on every later window. -/
def failingQuery : Nat → Nat → Except String (List TransferEvent) :=
  fun s _ => if s = 0 then .ok [⟨zeroAddress, 1, 0, 100⟩] else .error "connection error"

/-- C2, counterexample.  The claim asserts that a terminal window-query
failure makes the whole reconstruction abort and report failure to its
caller.  It fails: the `catch` in `buildHolderSnapshot` swallows the error
and returns a fresh empty map, and `trackMarketWinners` then reports a
successful winner record with zero winners.  With `failingQuery` (whose
second window, blocks 10–15, fails) the caller receives `some` record, not
a failure. -/
theorem claim_C2_counterexample :
    failingQuery 10 15 = .error "connection error" ∧
    trackMarketWinners (some 7) failingQuery 10 15 =
      some ⟨7, 15, [], 0, 0⟩ := by
  constructor
  · rfl
  · rfl

/-- C2, amended.  If any in-range window query fails, `buildHolderSnapshot`
returns the empty ledger (never a partial ledger built from the windows
that did succeed) — but it returns it as an ordinary success value rather
than reporting the failure. -/
theorem claim_C2 (queryFilter : Nat → Nat → Except String (List TransferEvent))
    (c B k : Nat) (err : String) (hk : k ≤ B / c)
    (hfail : queryFilter (k * c) (min (k * c + c - 1) B) = .error err) :
    buildHolderSnapshot queryFilter c B = [] := by
  obtain ⟨msg, hmsg⟩ := foldlM_window_error
    (fun kk => queryFilter (kk * c) (min (kk * c + c - 1) B))
    (List.range (B / c + 1)) [] k
    (List.mem_range.mpr (Nat.lt_succ_of_le hk)) ⟨err, hfail⟩
  unfold buildHolderSnapshot queryWindows
  rw [hmsg]

/-- C2, witness: the amended theorem applied to `failingQuery` with chunk
size 10 and cutoff block 15 — the second window fails and the snapshot is
empty. -/
theorem claim_C2_witness :
    failingQuery (1 * 10) (min (1 * 10 + 10 - 1) 15) = .error "connection error" ∧
    buildHolderSnapshot failingQuery 10 15 = [] :=
  ⟨rfl, claim_C2 failingQuery 10 15 1 "connection error" (by decide) rfl⟩

end WinnerTracker

namespace MarketTracker

/-- WebSocket reconnection state: the `wsReconnectAttempts` counter of
`PolymarketTracker`. -/
structure WsState where
  wsReconnectAttempts : Nat
deriving DecidableEq, Repr

/-- `scheduleReconnect` (marketTracker.js lines 631–645): if the attempt
counter has reached `maxReconnectAttempts` the method logs and returns
without scheduling (the terminal given-up behaviour); otherwise it
increments the counter and schedules a reconnect after
`reconnectDelay * 2 ^ (wsReconnectAttempts - 1)` milliseconds, returned
here as `some delay`. -/
def scheduleReconnect (maxReconnectAttempts reconnectDelay : Nat) (s : WsState) :
    WsState × Option Nat :=
  if s.wsReconnectAttempts ≥ maxReconnectAttempts then (s, none)
  else
    let attempts := s.wsReconnectAttempts + 1
    (⟨attempts⟩, some (reconnectDelay * 2 ^ (attempts - 1)))

/-- The outcomes of `n` successive connection failures, each invoking
`scheduleReconnect`: the list of scheduled delays (`none` when the channel
has given up). -/
def reconnectDelays (maxReconnectAttempts reconnectDelay : Nat) :
    Nat → WsState → List (Option Nat)
  | 0, _ => []
  | n + 1, s =>
    let p := scheduleReconnect maxReconnectAttempts reconnectDelay s
    p.2 :: reconnectDelays maxReconnectAttempts reconnectDelay n p.1

theorem reconnectDelays_from (maxA base : Nat) :
    ∀ (n j : Nat), j + n ≤ maxA →
      reconnectDelays maxA base n ⟨j⟩ =
        (List.range n).map (fun k => some (base * 2 ^ (j + k))) := by
  intro n
  induction n with
  | zero => intro j _; simp [reconnectDelays]
  | succ n ih =>
    intro j hj
    have hjlt : ¬ j ≥ maxA := by omega
    rw [List.range_succ_eq_map]
    simp only [reconnectDelays, scheduleReconnect, hjlt, if_false, List.map_cons]
    congr 1
    rw [ih (j + 1) (by omega), List.map_map]
    apply List.map_congr_left
    intro k _
    simp only [Function.comp]
    have harg : j + 1 + k = j + k.succ := by omega
    rw [harg]

theorem reconnectDelays_givenUp (maxA base : Nat) (s : WsState)
    (hs : maxA ≤ s.wsReconnectAttempts) :
    ∀ n, reconnectDelays maxA base n s = List.replicate n none := by
  intro n
  induction n with
  | zero => rfl
  | succ n ih =>
    simp only [reconnectDelays, scheduleReconnect, ge_iff_le, hs, if_true,
      List.replicate_succ]
    rw [ih]

/-- C7, confirmed.  For every reconnect attempt `n ≥ 1` (and as long as the
budget allows, `n ≤ maxReconnectAttempts`), the scheduled delay equals
`reconnectDelay * 2 ^ (n - 1)` — the `k`-th entry below is attempt
`k + 1` — and once the attempt counter has reached (and hence can never
exceed) the configured maximum, `scheduleReconnect` never schedules
anything again, for any number of further failures. -/
theorem claim_C7 (maxA base n : Nat) (s : WsState) :
    (n ≤ maxA →
      reconnectDelays maxA base n ⟨0⟩ =
        (List.range n).map (fun k => some (base * 2 ^ k))) ∧
    (maxA ≤ s.wsReconnectAttempts →
      reconnectDelays maxA base n s = List.replicate n none) := by
  constructor
  · intro hn
    have h := reconnectDelays_from maxA base n 0 (by omega)
    simpa using h
  · intro hs
    exact reconnectDelays_givenUp maxA base s hs n

/-- C7, witness: with the default configuration (`maxReconnectAttempts =
10`, `reconnectDelay = 5000`), attempts 1, 2, 3 are scheduled after 5000,
10000 and 20000 ms, and a channel that has exhausted its attempts schedules
nothing. -/
theorem claim_C7_witness :
    reconnectDelays 10 5000 3 ⟨0⟩ = [some 5000, some 10000, some 20000] ∧
    reconnectDelays 10 5000 3 ⟨10⟩ = [none, none, none] := by
  have h := claim_C7 10 5000 3 ⟨10⟩
  constructor
  · rw [h.1 (by decide)]
    decide
  · rw [h.2 (by decide)]
    decide

/-- The `realtimeCallbacks` JS `Set`, modelled by callback identifiers in
insertion order (a JS `Set` iterates in insertion order and holds no
duplicates). -/
abbrev CallbackSet := List Nat

/-- `addRealtimeCallback` (line 648): `Set.add`. -/
def addRealtimeCallback (callbacks : CallbackSet) (cb : Nat) : CallbackSet :=
  if cb ∈ callbacks then callbacks else callbacks ++ [cb]

/-- `removeRealtimeCallback` (line 652): `Set.delete`. -/
def removeRealtimeCallback (callbacks : CallbackSet) (cb : Nat) : CallbackSet :=
  callbacks.filter (fun x => x ≠ cb)

/-- `notifyRealtimeUpdate` (lines 655–663): iterate over the callback set,
invoking each callback inside `try … catch`; a thrown error is logged and
the loop continues.  `throws cb` models whether callback `cb` throws on
this event.  Returns the callback set as it stands after the loop (the
`catch` block does not remove anything) together with the invocation log,
one `(callback, threw)` pair per attempted delivery in iteration order. -/
def notifyRealtimeUpdate (callbacks : CallbackSet) (throws : Nat → Bool) :
    CallbackSet × List (Nat × Bool) :=
  (callbacks, callbacks.foldl (fun log cb => log ++ [(cb, throws cb)]) [])

theorem notify_log_eq_map (throws : Nat → Bool) :
    ∀ (callbacks : CallbackSet) (acc : List (Nat × Bool)),
      callbacks.foldl (fun log cb => log ++ [(cb, throws cb)]) acc =
        acc ++ callbacks.map (fun cb => (cb, throws cb)) := by
  intro callbacks
  induction callbacks with
  | nil => intro acc; simp
  | cons cb callbacks ih =>
    intro acc
    rw [List.foldl_cons, ih]
    simp

/-- A model subscriber population where exactly callback 1 throws. -/
def throwsOnlyOne : Nat → Bool := fun cb => cb = 1

/-- C4, counterexample.  The claim asserts that a subscriber whose delivery
throws is removed from the set immediately and receives no subsequent
events.  It fails: `notifyRealtimeUpdate` only catches and logs the error —
nothing is ever deleted from `realtimeCallbacks` — so after a fan-out in
which subscriber 1 threw, the set still contains subscriber 1, and a second
fan-out delivers to it again. -/
theorem claim_C4_counterexample :
    (notifyRealtimeUpdate [1, 2] throwsOnlyOne).2 = [(1, true), (2, false)] ∧
    (notifyRealtimeUpdate [1, 2] throwsOnlyOne).1 = [1, 2] ∧
    (notifyRealtimeUpdate
        (notifyRealtimeUpdate [1, 2] throwsOnlyOne).1 throwsOnlyOne).2 =
      [(1, true), (2, false)] := by
  refine ⟨by decide, by decide, by decide⟩

/-- C4, amended.  A subscriber whose delivery throws has the error caught
and logged; the subscriber set is left unchanged (the thrower keeps
receiving subsequent events), every current subscriber is attempted in set
order regardless of earlier errors, and — the set being duplicate-free —
each subscriber is invoked exactly once per emission. -/
theorem claim_C4 (callbacks : CallbackSet) (throws : Nat → Bool)
    (hnd : callbacks.Nodup) (cb : Nat) (hcb : cb ∈ callbacks) :
    (notifyRealtimeUpdate callbacks throws).1 = callbacks ∧
    ((notifyRealtimeUpdate callbacks throws).2).map Prod.fst = callbacks ∧
    (((notifyRealtimeUpdate callbacks throws).2).map Prod.fst).count cb = 1 := by
  have hmap : ((notifyRealtimeUpdate callbacks throws).2).map Prod.fst = callbacks := by
    simp only [notifyRealtimeUpdate, notify_log_eq_map, List.nil_append, List.map_map]
    have hfst : (Prod.fst ∘ fun cb => (cb, throws cb)) = id := funext (fun _ => rfl)
    rw [hfst, List.map_id]
  refine ⟨rfl, hmap, ?_⟩
  rw [hmap]
  exact List.count_eq_one_of_mem hnd hcb

/-- C4, witness: a two-subscriber set where subscriber 1 throws — the set
survives intact and subscriber 2 is delivered to exactly once. -/
theorem claim_C4_witness :
    (notifyRealtimeUpdate [1, 2] throwsOnlyOne).1 = [1, 2] ∧
    (((notifyRealtimeUpdate [1, 2] throwsOnlyOne).2).map Prod.fst).count 2 = 1 := by
  have h := claim_C4 [1, 2] throwsOnlyOne (by decide) 2 (by decide)
  exact ⟨h.1, h.2.2⟩

/-- Outcome of one attempted `axios.get` call: either the response data, or
an error carrying `error.response?.status` and `error.code`. -/
inductive AttemptResult where
  | ok (value : Nat)
  | err (status : Option Nat) (code : Option String)
deriving DecidableEq, Repr

/-- A queued dispatch request, as pushed by `makeRequest` (lines 88–93):
`retries` is the remaining retry budget (initially 3), `attempt` indexes the
next attempt, and `behavior`/`duration` model the upstream's response and
the wall-clock duration of each numbered attempt. -/
structure QueuedRequest where
  id : Nat
  retries : Nat
  attempt : Nat
  behavior : Nat → AttemptResult
  duration : Nat → Nat

/-- How a request's promise was settled: `resolve(response.data)` or
`reject(error)`. -/
inductive Settled where
  | resolved (value : Nat)
  | rejected (status : Option Nat) (code : Option String)
deriving DecidableEq, Repr

/-- The dispatcher's clock state: the current logical time and
`lastRequestTime`. -/
structure DispatchState where
  now : Nat
  last : Nat
deriving DecidableEq, Repr

/-- The logical time at which the head request is dispatched (lines
103–109): the elapsed time since `lastRequestTime` is computed and, if
under `delay`, the worker sleeps the difference before recording
`lastRequestTime = Date.now()` and issuing the request. -/
def dispatchTime (delay : Nat) (st : DispatchState) : Nat :=
  let timeSinceLastRequest := st.now - st.last
  if timeSinceLastRequest < delay
    then st.now + (delay - timeSinceLastRequest) else st.now

/-- `processQueue` (lines 95–131) with an explicit logical clock: while the
queue is non-empty, shift the front request; if the elapsed time since the
last dispatch is below `delay` (`rateLimits.delay`, 100 ms in the source),
sleep the difference; record the dispatch time (`lastRequestTime =
Date.now()`) and perform the attempt, which takes `duration` time.  On
success, resolve the caller.  On failure, if retries remain and the error
is a 429 rate-limit or an `ECONNRESET` (the transient class), sleep
`retryDelay` (2000 ms in the source) and unshift the request — front of the
queue — with its budget decremented; otherwise reject the caller.  Returns
the dispatch log `(id, dispatch time)` and the settlement log. -/
def processQueue (delay retryDelay : Nat) :
    DispatchState → List QueuedRequest → List (Nat × Nat) × List (Nat × Settled)
  | _, [] => ([], [])
  | st, r :: rest =>
    let t := dispatchTime delay st
    let afterAwait := t + r.duration r.attempt
    match r.behavior r.attempt with
    | .ok v =>
      let p := processQueue delay retryDelay ⟨afterAwait, t⟩ rest
      ((r.id, t) :: p.1, (r.id, .resolved v) :: p.2)
    | .err s c =>
      if h : 0 < r.retries ∧ (s = some 429 ∨ c = some "ECONNRESET") then
        let p := processQueue delay retryDelay ⟨afterAwait + retryDelay, t⟩
          ({ r with retries := r.retries - 1, attempt := r.attempt + 1 } :: rest)
        ((r.id, t) :: p.1, p.2)
      else
        let p := processQueue delay retryDelay ⟨afterAwait, t⟩ rest
        ((r.id, t) :: p.1, (r.id, .rejected s c) :: p.2)
termination_by _ l => (l.map (fun r => r.retries)).sum + l.length
decreasing_by
  · simp only [List.map_cons, List.sum_cons, List.length_cons]
    omega
  · obtain ⟨h1, _⟩ := h
    simp only [List.map_cons, List.sum_cons, List.length_cons]
    omega

/-- The settlement a request with the given behavior, remaining retry
budget, and next attempt index should receive: succeed on the first
successful attempt, retry transient failures while budget remains, and
otherwise reject.  Spec-side characterization, compared against
`processQueue` in C6. -/
def settleSpec (behavior : Nat → AttemptResult) : Nat → Nat → Settled
  | 0, k =>
    match behavior k with
    | .ok v => .resolved v
    | .err s c => .rejected s c
  | retries + 1, k =>
    match behavior k with
    | .ok v => .resolved v
    | .err s c =>
      if s = some 429 ∨ c = some "ECONNRESET" then settleSpec behavior retries (k + 1)
      else .rejected s c

theorem settleSpec_of_ok (b : Nat → AttemptResult) (n k v : Nat) (h : b k = .ok v) :
    settleSpec b n k = .resolved v := by
  cases n <;> simp [settleSpec, h]

theorem settleSpec_retry (b : Nat → AttemptResult) (n k : Nat) (s : Option Nat)
    (c : Option String) (h : b k = .err s c)
    (ht : s = some 429 ∨ c = some "ECONNRESET") (hn : 0 < n) :
    settleSpec b n k = settleSpec b (n - 1) (k + 1) := by
  cases n with
  | zero => omega
  | succ n => simp [settleSpec, h, ht]

theorem settleSpec_reject (b : Nat → AttemptResult) (n k : Nat) (s : Option Nat)
    (c : Option String) (h : b k = .err s c)
    (hnr : ¬ (0 < n ∧ (s = some 429 ∨ c = some "ECONNRESET"))) :
    settleSpec b n k = .rejected s c := by
  cases n with
  | zero => simp [settleSpec, h]
  | succ n =>
    have hnt : ¬ (s = some 429 ∨ c = some "ECONNRESET") := by
      intro hc
      exact hnr ⟨Nat.succ_pos n, hc⟩
    simp [settleSpec, h, hnt]

theorem processQueue_snd_bounded (delay retryDelay : Nat) :
    ∀ (N : Nat) (st : DispatchState) (l : List QueuedRequest),
      (l.map (fun r => r.retries)).sum + l.length ≤ N →
      (processQueue delay retryDelay st l).2 =
        l.map (fun r => (r.id, settleSpec r.behavior r.retries r.attempt)) := by
  intro N
  induction N with
  | zero =>
    intro st l hl
    have hnil : l = [] := by
      cases l with
      | nil => rfl
      | cons r rest => simp at hl
    subst hnil
    rw [processQueue]
    rfl
  | succ N ih =>
    intro st l hl
    cases l with
    | nil =>
      rw [processQueue]
      rfl
    | cons r rest =>
      have hrest : (rest.map (fun r => r.retries)).sum + rest.length ≤ N := by
        simp only [List.map_cons, List.sum_cons, List.length_cons] at hl
        omega
      rw [processQueue]
      rcases hb : r.behavior r.attempt with v | ⟨s, c⟩
      · simp [hb, ih _ rest hrest,
          settleSpec_of_ok r.behavior r.retries r.attempt v hb]
      · by_cases hcond : 0 < r.retries ∧ (s = some 429 ∨ c = some "ECONNRESET")
        · have hreq : ((({ r with retries := r.retries - 1, attempt := r.attempt + 1 }
              : QueuedRequest) :: rest).map (fun r => r.retries)).sum +
              (({ r with retries := r.retries - 1, attempt := r.attempt + 1 }
              : QueuedRequest) :: rest).length ≤ N := by
            simp only [List.map_cons, List.sum_cons, List.length_cons] at hl ⊢
            have h1 := hcond.1
            omega
          simp [hb, hcond, ih _ _ hreq,
            settleSpec_retry r.behavior r.retries r.attempt s c hb hcond.2 hcond.1]
        · simp [hb, hcond, ih _ rest hrest,
            settleSpec_reject r.behavior r.retries r.attempt s c hb hcond]

theorem processQueue_cons_ok (delay retryDelay : Nat) (st : DispatchState)
    (r : QueuedRequest) (rest : List QueuedRequest) (v : Nat)
    (hb : r.behavior r.attempt = .ok v) :
    processQueue delay retryDelay st (r :: rest) =
      ((r.id, dispatchTime delay st) ::
        (processQueue delay retryDelay
          ⟨dispatchTime delay st + r.duration r.attempt, dispatchTime delay st⟩ rest).1,
       (r.id, .resolved v) ::
        (processQueue delay retryDelay
          ⟨dispatchTime delay st + r.duration r.attempt, dispatchTime delay st⟩ rest).2) := by
  rw [processQueue]
  simp [hb]

theorem processQueue_cons_retry (delay retryDelay : Nat) (st : DispatchState)
    (r : QueuedRequest) (rest : List QueuedRequest) (s : Option Nat)
    (c : Option String) (hb : r.behavior r.attempt = .err s c)
    (hr : 0 < r.retries) (ht : s = some 429 ∨ c = some "ECONNRESET") :
    processQueue delay retryDelay st (r :: rest) =
      ((r.id, dispatchTime delay st) ::
        (processQueue delay retryDelay
          ⟨dispatchTime delay st + r.duration r.attempt + retryDelay, dispatchTime delay st⟩
          ({ r with retries := r.retries - 1, attempt := r.attempt + 1 } :: rest)).1,
       (processQueue delay retryDelay
          ⟨dispatchTime delay st + r.duration r.attempt + retryDelay, dispatchTime delay st⟩
          ({ r with retries := r.retries - 1, attempt := r.attempt + 1 } :: rest)).2) := by
  rw [processQueue]
  simp [hb, hr, ht]

theorem processQueue_cons_reject (delay retryDelay : Nat) (st : DispatchState)
    (r : QueuedRequest) (rest : List QueuedRequest) (s : Option Nat)
    (c : Option String) (hb : r.behavior r.attempt = .err s c)
    (hnr : ¬ (0 < r.retries ∧ (s = some 429 ∨ c = some "ECONNRESET"))) :
    processQueue delay retryDelay st (r :: rest) =
      ((r.id, dispatchTime delay st) ::
        (processQueue delay retryDelay
          ⟨dispatchTime delay st + r.duration r.attempt, dispatchTime delay st⟩ rest).1,
       (r.id, .rejected s c) ::
        (processQueue delay retryDelay
          ⟨dispatchTime delay st + r.duration r.attempt, dispatchTime delay st⟩ rest).2) := by
  rw [processQueue]
  simp [hb, hnr]

theorem processQueue_snd (delay retryDelay : Nat) (st : DispatchState)
    (l : List QueuedRequest) :
    (processQueue delay retryDelay st l).2 =
      l.map (fun r => (r.id, settleSpec r.behavior r.retries r.attempt)) :=
  processQueue_snd_bounded delay retryDelay
    ((l.map (fun r => r.retries)).sum + l.length) st l (le_refl _)

theorem dispatchTime_lower (delay : Nat) (st : DispatchState)
    (hle : st.last ≤ st.now) : st.last + delay ≤ dispatchTime delay st := by
  unfold dispatchTime
  by_cases hlt : st.now - st.last < delay <;> simp [hlt] <;> omega

theorem processQueue_spacing_bounded (delay retryDelay : Nat) :
    ∀ (N : Nat) (st : DispatchState) (l : List QueuedRequest),
      (l.map (fun r => r.retries)).sum + l.length ≤ N →
      st.last ≤ st.now →
      List.Chain' (fun p q : Nat × Nat => p.2 + delay ≤ q.2)
          ((processQueue delay retryDelay st l).1) ∧
      (∀ p, ((processQueue delay retryDelay st l).1).head? = some p →
        st.last + delay ≤ p.2) := by
  intro N
  induction N with
  | zero =>
    intro st l hl _
    have hnil : l = [] := by
      cases l with
      | nil => rfl
      | cons r rest => simp at hl
    subst hnil
    rw [processQueue]
    exact ⟨List.chain'_nil, by intro p hp; simp at hp⟩
  | succ N ih =>
    intro st l hl hle
    cases l with
    | nil =>
      rw [processQueue]
      exact ⟨List.chain'_nil, by intro p hp; simp at hp⟩
    | cons r rest =>
      have hrest : (rest.map (fun r => r.retries)).sum + rest.length ≤ N := by
        simp only [List.map_cons, List.sum_cons, List.length_cons] at hl
        omega
      have hfirst := dispatchTime_lower delay st hle
      rcases hb : r.behavior r.attempt with v | ⟨s, c⟩
      · rw [processQueue_cons_ok delay retryDelay st r rest v hb]
        obtain ⟨hch, hhd⟩ := ih
          ⟨dispatchTime delay st + r.duration r.attempt, dispatchTime delay st⟩
          rest hrest (Nat.le_add_right _ _)
        refine ⟨?_, ?_⟩
        · rw [List.chain'_cons']
          refine ⟨?_, hch⟩
          intro b hbm
          exact hhd b hbm
        · intro p hp
          simp only [List.head?_cons, Option.some.injEq] at hp
          rw [← hp]
          exact hfirst
      · by_cases hcond : 0 < r.retries ∧ (s = some 429 ∨ c = some "ECONNRESET")
        · have hreq : ((({ r with retries := r.retries - 1, attempt := r.attempt + 1 }
              : QueuedRequest) :: rest).map (fun r => r.retries)).sum +
              (({ r with retries := r.retries - 1, attempt := r.attempt + 1 }
              : QueuedRequest) :: rest).length ≤ N := by
            simp only [List.map_cons, List.sum_cons, List.length_cons] at hl ⊢
            have h1 := hcond.1
            omega
          rw [processQueue_cons_retry delay retryDelay st r rest s c hb hcond.1 hcond.2]
          obtain ⟨hch, hhd⟩ := ih
            ⟨dispatchTime delay st + r.duration r.attempt + retryDelay, dispatchTime delay st⟩
            _ hreq (le_trans (Nat.le_add_right _ _) (Nat.le_add_right _ _))
          refine ⟨?_, ?_⟩
          · rw [List.chain'_cons']
            refine ⟨?_, hch⟩
            intro b hbm
            exact hhd b hbm
          · intro p hp
            simp only [List.head?_cons, Option.some.injEq] at hp
            rw [← hp]
            exact hfirst
        · rw [processQueue_cons_reject delay retryDelay st r rest s c hb hcond]
          obtain ⟨hch, hhd⟩ := ih
            ⟨dispatchTime delay st + r.duration r.attempt, dispatchTime delay st⟩
            rest hrest (Nat.le_add_right _ _)
          refine ⟨?_, ?_⟩
          · rw [List.chain'_cons']
            refine ⟨?_, hch⟩
            intro b hbm
            exact hhd b hbm
          · intro p hp
            simp only [List.head?_cons, Option.some.injEq] at hp
            rw [← hp]
            exact hfirst

/-- C6, confirmed.  First conjunct: the settlement log of draining a queue
is exactly one settlement per enqueued request, in queue order, where each
request's settlement is `settleSpec`: its first successful attempt resolves
it, a transient failure (429 rate-limit or `ECONNRESET`) with budget
remaining retries with the budget decremented by one, and retry exhaustion
or any non-transient failure rejects it with that failure — so every
request is resolved or rejected exactly once, with the failure surfaced to
the original caller.  Second conjunct: on a transient failure with
`retries > 0`, the loop continues with the request re-queued at the front
of the queue with its budget decremented and attempt index advanced, after
the clock has additionally advanced by the fixed `retryDelay`. -/
theorem claim_C6 (delay retryDelay : Nat) (st : DispatchState)
    (l : List QueuedRequest) (r : QueuedRequest) (rest : List QueuedRequest)
    (s : Option Nat) (c : Option String) :
    (processQueue delay retryDelay st l).2 =
      l.map (fun q => (q.id, settleSpec q.behavior q.retries q.attempt)) ∧
    (r.behavior r.attempt = .err s c → 0 < r.retries →
      (s = some 429 ∨ c = some "ECONNRESET") →
      processQueue delay retryDelay st (r :: rest) =
        ((r.id, dispatchTime delay st) ::
          (processQueue delay retryDelay
            ⟨dispatchTime delay st + r.duration r.attempt + retryDelay, dispatchTime delay st⟩
            ({ r with retries := r.retries - 1, attempt := r.attempt + 1 } :: rest)).1,
         (processQueue delay retryDelay
            ⟨dispatchTime delay st + r.duration r.attempt + retryDelay, dispatchTime delay st⟩
            ({ r with retries := r.retries - 1, attempt := r.attempt + 1 } :: rest)).2)) :=
  ⟨processQueue_snd delay retryDelay st l,
   fun hb hr ht => processQueue_cons_retry delay retryDelay st r rest s c hb hr ht⟩

/-- A request that is rate-limited on its first two attempts and succeeds
on the third, with retry budget 3 (the `makeRequest` default). -/
def bumpyRequest : QueuedRequest :=
  ⟨5, 3, 0, fun k => if k < 2 then .err (some 429) none else .ok 42, fun _ => 7⟩

/-- A request that succeeds immediately. -/
def quickRequest : QueuedRequest :=
  ⟨6, 3, 0, fun _ => .ok 9, fun _ => 7⟩

/-- C6, witness: with the source's configuration (spacing 100 ms, retry
delay 2000 ms), a twice-rate-limited request resolves on its third attempt
and the following request still resolves — one settlement each, in order —
and the first dispatch of the retried request happens at time 100. -/
theorem claim_C6_witness :
    (processQueue 100 2000 ⟨0, 0⟩ [bumpyRequest, quickRequest]).2 =
      [(5, Settled.resolved 42), (6, Settled.resolved 9)] ∧
    ((processQueue 100 2000 ⟨0, 0⟩ [bumpyRequest, quickRequest]).1).head? =
      some (5, 100) := by
  have h := claim_C6 100 2000 ⟨0, 0⟩ [bumpyRequest, quickRequest]
    bumpyRequest [quickRequest] (some 429) none
  have h2 := h.2 (by decide) (by decide) (by decide)
  constructor
  · rw [h.1]
    decide
  · rw [h2]
    decide

/-- C8, confirmed.  Starting from any clock state in which the last
dispatch does not lie in the future, any two dispatches of the worker loop
are at least the configured minimum spacing apart: before each dispatch the
worker waits out the remainder of `delay`, so the dispatch-time log is
pairwise separated by at least `delay`. -/
theorem claim_C8 (delay retryDelay : Nat) (st : DispatchState)
    (l : List QueuedRequest) (hle : st.last ≤ st.now) :
    List.Pairwise (fun p q : Nat × Nat => p.2 + delay ≤ q.2)
      ((processQueue delay retryDelay st l).1) := by
  have h := (processQueue_spacing_bounded delay retryDelay
    ((l.map (fun r => r.retries)).sum + l.length) st l (le_refl _) hle).1
  have htrans : IsTrans (Nat × Nat) (fun p q => p.2 + delay ≤ q.2) :=
    ⟨fun a b c hab hbc => by omega⟩
  exact List.chain'_iff_pairwise.mp h

/-- C8, witness: the theorem applied to the concrete two-request queue of
the C6 witness, from the initial clock state. -/
theorem claim_C8_witness :
    (0 : Nat) ≤ 0 ∧
    List.Pairwise (fun p q : Nat × Nat => p.2 + 100 ≤ q.2)
      ((processQueue 100 2000 ⟨0, 0⟩ [bumpyRequest, quickRequest]).1) :=
  ⟨by decide, claim_C8 100 2000 ⟨0, 0⟩ [bumpyRequest, quickRequest] (by decide)⟩

/-- One market of a tracked event, restricted to the fields the resolution
handler reads or writes plus a representative untouched field
(`question`). -/
structure Market where
  id : Nat
  question : String
  status : String
  resolvedAt : Option String
deriving DecidableEq, Repr

/-- One tracked event.  The two counters are `Int` because the handler's
`activeMarketsCount--` is unguarded; `title` stands for the untouched
metadata fields. -/
structure EventData where
  title : String
  markets : List Market
  activeMarketsCount : Int
  resolvedMarketsCount : Int
deriving DecidableEq, Repr

/-- The shared events store: the `active` and `resolved` maps, each an
insertion-ordered association list keyed by event id. -/
structure EventsState where
  active : List (Nat × EventData)
  resolved : List (Nat × EventData)
deriving DecidableEq, Repr

/-- A `market_resolved` realtime notification, restricted to the fields the
claim speaks about. -/
structure ResolvedNotification where
  eventId : Nat
  marketId : Nat
  activeMarketsCount : Int
  resolvedMarketsCount : Int
deriving DecidableEq, Repr

/-- The `markets.findIndex` / in-place mutation of `handleMarketResolution`
(lines 600–607): find the first market with the given id and set its
`status` to resolved, stamping `resolvedAt`; `none` when no market
matches. -/
def resolveFirstMarket (marketId : Nat) (ts : String) :
    List Market → Option (List Market)
  | [] => none
  | m :: ms =>
    if m.id = marketId then
      some ({ m with status := "resolved", resolvedAt := some ts } :: ms)
    else
      (resolveFirstMarket marketId ts ms).map (fun ms' => m :: ms')

/-- The loop of `handleMarketResolution` (lines 598–629) over the active
events in iteration order: the first active event containing the market has
that market resolved, its `resolvedMarketsCount` incremented and its
`activeMarketsCount` decremented, and one `market_resolved` notification is
emitted; the loop then `break`s.  If no active event contains the market,
nothing changes and nothing is emitted. -/
def handleMarketResolutionActive (marketId : Nat) (ts : String) :
    List (Nat × EventData) → List (Nat × EventData) × List ResolvedNotification
  | [] => ([], [])
  | (eventId, eventData) :: rest =>
    match resolveFirstMarket marketId ts eventData.markets with
    | some ms' =>
      ((eventId,
        { eventData with
          markets := ms'
          resolvedMarketsCount := eventData.resolvedMarketsCount + 1
          activeMarketsCount := eventData.activeMarketsCount - 1 }) :: rest,
       [⟨eventId, marketId, eventData.activeMarketsCount - 1,
         eventData.resolvedMarketsCount + 1⟩])
    | none =>
      let p := handleMarketResolutionActive marketId ts rest
      ((eventId, eventData) :: p.1, p.2)

/-- `handleMarketResolution` on the whole store: only the `active` map is
touched; the `resolved` map is never consulted or modified. -/
def handleMarketResolution (st : EventsState) (marketId : Nat) (ts : String) :
    EventsState × List ResolvedNotification :=
  (⟨(handleMarketResolutionActive marketId ts st.active).1, st.resolved⟩,
   (handleMarketResolutionActive marketId ts st.active).2)

theorem resolveFirstMarket_none (marketId : Nat) (ts : String) :
    ∀ (ms : List Market), (∀ m ∈ ms, m.id ≠ marketId) →
      resolveFirstMarket marketId ts ms = none := by
  intro ms
  induction ms with
  | nil => intro _; rfl
  | cons m ms ih =>
    intro h
    have hm : ¬ m.id = marketId := h m (List.mem_cons_self m ms)
    simp only [resolveFirstMarket, hm, if_false]
    rw [ih (fun m' hm' => h m' (List.mem_cons_of_mem m hm'))]
    rfl

theorem resolveFirstMarket_found (marketId : Nat) (ts : String)
    (m : Market) (hm : m.id = marketId) :
    ∀ (mpre mpost : List Market), (∀ mm ∈ mpre, mm.id ≠ marketId) →
      resolveFirstMarket marketId ts (mpre ++ m :: mpost) =
        some (mpre ++ { m with status := "resolved", resolvedAt := some ts } :: mpost) := by
  intro mpre
  induction mpre with
  | nil =>
    intro mpost _
    simp [resolveFirstMarket, hm]
  | cons mm mpre ih =>
    intro mpost h
    have hmm : ¬ mm.id = marketId := h mm (List.mem_cons_self mm mpre)
    rw [List.cons_append, resolveFirstMarket, if_neg hmm,
      ih mpost (fun m' hm' => h m' (List.mem_cons_of_mem mm hm'))]
    rfl

theorem handleMarketResolutionActive_none (marketId : Nat) (ts : String) :
    ∀ (l : List (Nat × EventData)),
      (∀ p ∈ l, ∀ m ∈ p.2.markets, m.id ≠ marketId) →
      handleMarketResolutionActive marketId ts l = (l, []) := by
  intro l
  induction l with
  | nil => intro _; rfl
  | cons p l ih =>
    intro h
    obtain ⟨eventId, eventData⟩ := p
    have hnone := resolveFirstMarket_none marketId ts eventData.markets
      (h (eventId, eventData) (List.mem_cons_self _ _))
    simp only [handleMarketResolutionActive, hnone]
    rw [ih (fun p' hp' => h p' (List.mem_cons_of_mem _ hp'))]

theorem handleMarketResolutionActive_found (marketId : Nat) (ts : String)
    (eventId : Nat) (eventData : EventData) (post : List (Nat × EventData))
    (mpre : List Market) (m : Market) (mpost : List Market)
    (hmk : eventData.markets = mpre ++ m :: mpost)
    (hmpre : ∀ mm ∈ mpre, mm.id ≠ marketId) (hm : m.id = marketId) :
    ∀ (pre : List (Nat × EventData)),
      (∀ p ∈ pre, ∀ mm ∈ p.2.markets, mm.id ≠ marketId) →
      handleMarketResolutionActive marketId ts (pre ++ (eventId, eventData) :: post) =
        (pre ++ (eventId,
          { eventData with
            markets := mpre ++ { m with status := "resolved", resolvedAt := some ts } :: mpost
            resolvedMarketsCount := eventData.resolvedMarketsCount + 1
            activeMarketsCount := eventData.activeMarketsCount - 1 }) :: post,
         [⟨eventId, marketId, eventData.activeMarketsCount - 1,
           eventData.resolvedMarketsCount + 1⟩]) := by
  intro pre
  induction pre with
  | nil =>
    intro _
    have hfound := resolveFirstMarket_found marketId ts m hm mpre mpost hmpre
    simp only [List.nil_append, handleMarketResolutionActive, hmk, hfound]
  | cons p pre ih =>
    intro h
    obtain ⟨eid, ed⟩ := p
    have hnone := resolveFirstMarket_none marketId ts ed.markets
      (h (eid, ed) (List.mem_cons_self _ _))
    rw [List.cons_append, handleMarketResolutionActive, hnone,
      ih (fun p' hp' => h p' (List.mem_cons_of_mem _ hp'))]
    rfl

/-- C10, confirmed.  First conjunct: when no active event contains the
market, the handler leaves the whole store unchanged and emits nothing.
Second conjunct: when the first active event containing the market is
`(eventId, eventData)` and the market is the first match inside it, the
handler only rewrites that market's `status`/`resolvedAt`, increments the
event's `resolvedMarketsCount` and decrements its `activeMarketsCount`
(their sum is preserved — third conjunct), keeps the event in the active
map in place (all other events and markets unchanged, key set unchanged),
leaves the resolved map untouched, and emits exactly one `market_resolved`
notification. -/
theorem claim_C10 (st : EventsState) (marketId : Nat) (ts : String) :
    ((∀ p ∈ st.active, ∀ m ∈ p.2.markets, m.id ≠ marketId) →
      handleMarketResolution st marketId ts = (st, [])) ∧
    (∀ (pre : List (Nat × EventData)) (eventId : Nat) (eventData : EventData)
        (post : List (Nat × EventData)) (mpre : List Market) (m : Market)
        (mpost : List Market),
      st.active = pre ++ (eventId, eventData) :: post →
      (∀ p ∈ pre, ∀ mm ∈ p.2.markets, mm.id ≠ marketId) →
      eventData.markets = mpre ++ m :: mpost →
      (∀ mm ∈ mpre, mm.id ≠ marketId) →
      m.id = marketId →
      handleMarketResolution st marketId ts =
        (⟨pre ++ (eventId,
            { eventData with
              markets :=
                mpre ++ { m with status := "resolved", resolvedAt := some ts } :: mpost
              resolvedMarketsCount := eventData.resolvedMarketsCount + 1
              activeMarketsCount := eventData.activeMarketsCount - 1 }) :: post,
          st.resolved⟩,
         [⟨eventId, marketId, eventData.activeMarketsCount - 1,
           eventData.resolvedMarketsCount + 1⟩]) ∧
      (eventData.activeMarketsCount - 1) + (eventData.resolvedMarketsCount + 1) =
        eventData.activeMarketsCount + eventData.resolvedMarketsCount) := by
  constructor
  · intro h
    unfold handleMarketResolution
    rw [handleMarketResolutionActive_none marketId ts st.active h]
  · intro pre eventId eventData post mpre m mpost hact hpre hmk hmpre hm
    constructor
    · unfold handleMarketResolution
      rw [hact, handleMarketResolutionActive_found marketId ts eventId eventData post
        mpre m mpost hmk hmpre hm pre hpre]
    · ring

/-- A concrete still-active market. -/
def sampleMarketA : Market := ⟨7, "will it rain", "active", none⟩

/-- The concrete market that gets resolved in the C10 witness. -/
def sampleMarketB : Market := ⟨9, "will it snow", "active", none⟩

/-- A concrete active event holding the two sample markets. -/
def sampleEvent : EventData := ⟨"weather", [sampleMarketA, sampleMarketB], 2, 0⟩

/-- A concrete events store: one active event without the market, one with
it, and one resolved event. -/
def sampleState : EventsState :=
  ⟨[(3, ⟨"empty", [], 0, 0⟩), (5, sampleEvent)], [(4, ⟨"done", [], 0, 1⟩)]⟩

/-- C10, witness: resolving market 9 in `sampleState` rewrites only that
market inside event 5, sets the counters to 1/1, keeps the resolved map,
and emits one notification. -/
theorem claim_C10_witness :
    handleMarketResolution sampleState 9 "2025-01-01" =
      (⟨[(3, ⟨"empty", [], 0, 0⟩),
         (5, ⟨"weather",
           [sampleMarketA, ⟨9, "will it snow", "resolved", some "2025-01-01"⟩], 1, 1⟩)],
        [(4, ⟨"done", [], 0, 1⟩)]⟩,
       [⟨5, 9, 1, 1⟩]) := by
  have h := (claim_C10 sampleState 9 "2025-01-01").2
    [(3, ⟨"empty", [], 0, 0⟩)] 5 sampleEvent [] [sampleMarketA] sampleMarketB []
    rfl (by decide) rfl (by decide) rfl
  rw [h.1]
  rfl

end MarketTracker
